import Mathlib

/-!
# Verification of the MergePicFolders background task engine

Shallow embedding of the core logic of the MergePicFolders repository:
the unique-path collision resolver, the folder-preview search, the merge
and cleanup loops of the background worker (`src/worker.py`), the
merge-target naming and conflict check, the bounded preview-task
scheduler, and the refresh carry-forward logic (`window.py`).

Filesystem paths are modelled as lists of path components
(`FPath := List String`).  The filesystem itself is modelled as a list of
file paths plus a list of directory paths.  Fallible or environmental
behaviour (a `shutil.move` raising, `os.rmdir` failing, a cached image
being readable) is modelled by explicit oracle lists passed as arguments.
-/

namespace MergePic

/-- A filesystem path, as a list of components. -/
abbrev FPath := List String

/-- Code-point lexicographic strict order on character lists, as Python
compares strings. -/
def charListLt : List Char → List Char → Bool
  | [], [] => false
  | [], _ :: _ => true
  | _ :: _, [] => false
  | a :: as, b :: bs =>
    decide (a.toNat < b.toNat) || (decide (a.toNat = b.toNat) && charListLt as bs)

/-- Python's `<=` on strings: code-point lexicographic. -/
def pyStrLe (a b : String) : Bool :=
  charListLt a.toList b.toList || a.toList == b.toList

/-- Python's `str.lower()`, for the ASCII names involved here. -/
def strToLower (s : String) : String := String.mk (s.toList.map Char.toLower)

/-- `f` is strictly below directory `s` (`s` is a proper prefix of `f`).
This is the set of entries `s.rglob("*")` yields. -/
def isUnder (s f : FPath) : Bool :=
  s.isPrefixOf f && decide (s.length < f.length)

/-- The final path component (`Path.name` in `pathlib`). -/
def lastName (f : FPath) : String := f.getLastD ""

/-- Index of the last `.` in a character list, if any. -/
def lastDotFrom : List Char → Nat → Option Nat
  | [], _ => none
  | c :: rest, i =>
    match lastDotFrom rest (i + 1) with
    | some j => some j
    | none => if c = '.' then some i else none

/-- `pathlib` suffix of a file name: the part from the last dot on,
provided that dot is neither the first nor the last character. -/
def suffixOfName (name : String) : String :=
  match lastDotFrom name.toList 0 with
  | none => ""
  | some i =>
    if 0 < i ∧ i + 1 < name.toList.length then
      String.mk (name.toList.drop i)
    else ""

/-- `pathlib` stem of a file name: the name without its suffix. -/
def stemOfName (name : String) : String :=
  name.dropRight (suffixOfName name).length

/-- The supported image extension set from `worker.py`
(`SUPPORTED_IMAGE_EXTENSIONS`). -/
def SUPPORTED_IMAGE_EXTENSIONS : List String :=
  [".png", ".jpg", ".jpeg", ".bmp", ".gif", ".tif", ".tiff", ".webp", ".heic"]

/-! ## The unique-path collision resolver
(`Worker._generate_unique_target_path`, `worker.py` lines 146-166)

Existence checks only ever concern entries directly inside the fixed
target directory, so the filesystem is abstracted to `occ`, the list of
entry names currently present in the target directory.  `ts` is the
millisecond timestamp `int(time.time() * 1000)` read in the fallback
branch. -/

/-- The `while target_path.exists():` loop of
`_generate_unique_target_path`, with `current` the candidate name being
re-checked at the top of the loop and `counter` the Python `counter`
variable.  `fuel` is a structural bound; the loop body runs at most 1000
times (the `counter > 1000` safety break), so with initial fuel 1001 the
`fuel = 0` case is unreachable. -/
def uniqueLoop (occ : List String) (stem suffix : String) (ts : Nat) :
    Nat → Nat → String → Option String
  | 0, _, _ => none
  | fuel + 1, counter, current =>
    if current ∈ occ then
      if counter + 1 > 1000 then
        if (stem ++ "_" ++ toString ts ++ suffix) ∈ occ then none
        else some (stem ++ "_" ++ toString ts ++ suffix)
      else
        uniqueLoop occ stem suffix ts fuel (counter + 1)
          (stem ++ "_" ++ toString counter ++ suffix)
    else
      some current

/-- `Worker._generate_unique_target_path`: returns the name of a
not-yet-existing entry of the target directory for a source file with
name `name`, stem `stem` and suffix `suffix`, or `none` when no unique
name could be generated. -/
def generate_unique_target_path (occ : List String) (name stem suffix : String)
    (ts : Nat) : Option String :=
  if name ∈ occ then uniqueLoop occ stem suffix ts 1001 1 name
  else some name

/-! ## The preview-image search
(`Worker._get_folder_preview_image`, `worker.py` lines 294-344)

The folder's subtree is abstracted to a list of entries with their path
relative to the folder, in directory-listing order; `glob` of a pattern
with `d` components returns exactly the entries whose relative path has
`d` components, in that order. -/

/-- An entry of the scanned folder's subtree: its path relative to the
folder, whether it is a regular file, its size in bytes, and whether
`os.path.getsize` succeeds on it. -/
structure PreviewEntry where
  relPath : List String
  isFile : Bool
  size : Nat
  readable : Bool
deriving DecidableEq, Repr

/-- Number of path components below the scanned folder. -/
def PreviewEntry.depth (e : PreviewEntry) : Nat := e.relPath.length

/-- A candidate qualifies when it is a regular file with a supported
extension (case-insensitive), is readable and has non-zero size.
Candidates failing the size or readability test are skipped, mirroring
the `try: if os.path.getsize(...) > 0` block. -/
def qualifies (e : PreviewEntry) : Bool :=
  e.isFile && (strToLower (suffixOfName (lastName e.relPath)) ∈ SUPPORTED_IMAGE_EXTENSIONS)
    && e.readable && decide (0 < e.size)

/-- First qualifying entry of a glob result, in listing order. -/
def firstQual : List PreviewEntry → Option PreviewEntry
  | [] => none
  | e :: rest => if qualifies e then some e else firstQual rest

/-- Entries a `glob` of a `d`-component pattern yields. -/
def globDepth (entries : List PreviewEntry) (d : Nat) : List PreviewEntry :=
  entries.filter (fun e => e.depth = d)

/-- The `for depth in range(1, max_depth + 1)` loop: for each depth `d`
the pattern `"/".join(["*"] * d)` is globbed and the first qualifying
entry returned. -/
def previewDepthLoop (entries : List PreviewEntry) : List Nat → Option PreviewEntry
  | [] => none
  | d :: rest =>
    match firstQual (globDepth entries d) with
    | some e => some e
    | none => previewDepthLoop entries rest

/-- `Worker._get_folder_preview_image`: first the direct children
(`folder_path.glob("*")`) are scanned, then the depth loop runs for
depths 1 and 2 (`max_depth = 2`), whose patterns are `"*"` and `"*/*"`.
Returns the entry emitted via `folder_preview_image`, or `none` when the
"No preview image found" branch is reached.  Cancellation is not
modelled (`_is_running` stays true). -/
def get_folder_preview_image (entries : List PreviewEntry) : Option PreviewEntry :=
  match firstQual (globDepth entries 1) with
  | some e => some e
  | none => previewDepthLoop entries [1, 2]

/-! ## The merge engine
(`Worker._merge_subfolders_to_target`, `worker.py` lines 168-292)

The filesystem is a list of file paths and a list of directory paths.
`failMove` is the oracle of files whose `shutil.move` raises; `rmFail`
the oracle of directories whose `rmdir` raises an `OSError` for
environmental reasons; `ts` the timestamp of the resolver's fallback
branch.  Cancellation is not modelled (`_is_running` stays true). -/

/-- Names occupied directly inside directory `T`: the resolver's
`target_path.exists()` sees every filesystem entry `T / n`. -/
def namesIn (files dirs : List FPath) (T : FPath) : List String :=
  (files ++ dirs).filterMap (fun e =>
    if e.length = T.length + 1 ∧ T.isPrefixOf e then some (lastName e) else none)

/-- Mutable state of the merge loop: the current files, the `moved_count`
and `skipped_count` counters, and the `processed_sources` list. -/
structure MergeState where
  files : List FPath
  moved : Nat
  skipped : Nat
  processed : List FPath
deriving DecidableEq

/-- Body of the per-file loop (`for item_path in items_to_move`, for a
file item): resolve a unique target name; a `None` resolution counts as
skipped; otherwise move the file, a raising move counting as skipped.
Every branch continues with the remaining files. -/
def processFile (failMove dirs : List FPath) (T : FPath) (ts : Nat)
    (st : MergeState) (f : FPath) : MergeState :=
  let name := lastName f
  match generate_unique_target_path (namesIn st.files dirs T) name
      (stemOfName name) (suffixOfName name) ts with
  | none => { st with skipped := st.skipped + 1 }
  | some n =>
    if f ∈ failMove then { st with skipped := st.skipped + 1 }
    else
      { st with files := st.files.erase f ++ [T ++ [n]], moved := st.moved + 1 }

/-- Body of the per-source loop: an invalid source directory is skipped
with an error message; a valid one has its current subtree snapshotted
(`list(source_folder.rglob("*"))`, of which only the files are moved)
and processed file by file, then is appended to `processed_sources`. -/
def sourceStep (failMove dirs : List FPath) (T : FPath) (ts : Nat)
    (st : MergeState) (S : FPath) : MergeState :=
  if S ∈ dirs then
    let snapshot := st.files.filter (fun f => isUnder S f)
    let st2 := snapshot.foldl (processFile failMove dirs T ts) st
    { st2 with processed := st2.processed ++ [S] }
  else st

/-- Whether directory `d` has an immediate child entry (the `dirs` and
`files` listings `os.walk` reports for `d`, and what makes an `rmdir`
fail as non-empty). -/
def hasImmediateChild (dirs files : List FPath) (d : FPath) : Bool :=
  (dirs ++ files).any (fun e => e.length = d.length + 1 && d.isPrefixOf e)

/-- The directories `os.walk(source, topdown=False)` visits: every
existing directory at or below `S`, children before parents. -/
def walkDirs (dirs : List FPath) (S : FPath) : List FPath :=
  List.insertionSort (fun a b => b.length ≤ a.length)
    (dirs.filter (fun d => S.isPrefixOf d))

/-- The collection loop of the cleanup pass: the walk runs to completion
first, recording every visited directory whose listing shows no
subdirectories and no files (`if not dirs and not files`). -/
def collectEmptyDirs (dirs files : List FPath) (S : FPath) : List FPath :=
  (walkDirs dirs S).filter (fun d => !(hasImmediateChild dirs files d))

/-- One `dir_to_delete.rmdir()` attempt: it removes `d` when `d` still
exists, is empty, and the oracle allows it; any failure is logged and the
loop continues.  The counter increments when the source root itself is
deleted (`if dir_to_delete == source_folder`). -/
def rmdirStep (rmFail files : List FPath) (S : FPath)
    (acc : List FPath × Nat) (d : FPath) : List FPath × Nat :=
  if d ∈ acc.1 ∧ hasImmediateChild acc.1 files d = false ∧ d ∉ rmFail then
    (acc.1.erase d, acc.2 + if d = S then 1 else 0)
  else acc

/-- Cleanup of one processed source directory: collect the
scan-time-empty directories bottom-up, then attempt to delete each. -/
def cleanupSource (rmFail files : List FPath) (acc : List FPath × Nat)
    (S : FPath) : List FPath × Nat :=
  (collectEmptyDirs acc.1 files S).foldl (rmdirStep rmFail files S) acc

/-- Result of `_merge_subfolders_to_target`, including the final value of
the worker's `_success` flag as set by that method (`innerSuccess`). -/
structure MergeResult where
  files : List FPath
  dirs : List FPath
  moved : Nat
  skipped : Nat
  deletedSourceDirs : Nat
  processed : List FPath
  innerSuccess : Bool
  targetMissing : Bool
deriving DecidableEq

/-- `Worker._merge_subfolders_to_target`: aborts early when the target
does not exist (leaving `_success` at its initial `False`); otherwise
moves every file of every valid source into the target, cleans up the
processed sources, and sets `_success` to `skipped_count == 0`. -/
def merge_subfolders_to_target (failMove rmFail : List FPath) (ts : Nat)
    (sources : List FPath) (T : FPath) (files dirs : List FPath) : MergeResult :=
  if T ∈ dirs then
    let st := sources.foldl (sourceStep failMove dirs T ts) ⟨files, 0, 0, []⟩
    let cl := st.processed.foldl (cleanupSource rmFail st.files) (dirs, 0)
    ⟨st.files, cl.1, st.moved, st.skipped, cl.2, st.processed,
      decide (st.skipped = 0), false⟩
  else
    ⟨files, dirs, 0, 0, 0, [], false, true⟩

/-- What `Worker.run` produces for a merge task: the merge result when
the inputs are valid, the single terminal `finished` notification, and
whether the invalid-inputs error branch was taken. -/
structure RunOutcome where
  result : Option MergeResult
  finished : List (String × Bool)
  inputError : Bool
  filesAfter : List FPath
  dirsAfter : List FPath
deriving DecidableEq

/-- `Worker.run` for `task_type == "merge_subs"`: with a target and a
non-empty source list it calls `_merge_subfolders_to_target` and then
unconditionally sets `self._success = True` (worker.py line 71),
overwriting the flag the merge computed; otherwise it emits the
"invalid source or target folders" error and leaves `_success` at
`False`.  The `finally` block emits the terminal notification exactly
once either way. -/
def workerRunMerge (failMove rmFail : List FPath) (ts : Nat)
    (sources : List FPath) (target : Option FPath)
    (files dirs : List FPath) : RunOutcome :=
  match target, sources with
  | some T, s :: rest =>
    let r := merge_subfolders_to_target failMove rmFail ts (s :: rest) T files dirs
    { result := some r, finished := [("merge_subs", true)], inputError := false,
      filesAfter := r.files, dirsAfter := r.dirs }
  | _, _ =>
    { result := none, finished := [("merge_subs", false)], inputError := true,
      filesAfter := files, dirsAfter := dirs }

/-! ## Merge-target naming and the pre-merge conflict check
(`ImageFolderTool.confirm_and_start_merge_to_new`, `window.py`
lines 1147-1266) -/

/-- Whether the character list `pat` occurs inside `s`
(Python's `pat in s`). -/
def listContainsChars (pat s : List Char) : Bool :=
  (List.range (s.length + 1)).any (fun i => pat.isPrefixOf (s.drop i))

/-- The check `"_merged" in first_source_name.lower()`. -/
def containsMergedCI (s : String) : Bool :=
  listContainsChars "_merged".toList (strToLower s).toList

/-- The target folder name derived from the first sorted source name
(`window.py` lines 1176-1179). -/
def targetNameFor (first : String) : String :=
  if containsMergedCI first then first ++ "1" else first ++ "_merged"

/-- Python's `list.sort()` on strings: a stable ascending sort under the
code-point order. -/
def sortNames (l : List String) : List String :=
  List.insertionSort (fun a b => pyStrLe a b = true) l

/-- The automatically chosen target folder name: sort the checked source
names ascending and apply the naming rule to the first. -/
def merge_target_name (names : List String) : Option String :=
  match sortNames names with
  | [] => none
  | first :: _ => some (targetNameFor first)

/-- `target_folder_path.mkdir(parents=True, exist_ok=True)`: idempotent
directory creation that never fails on an existing directory. -/
def mkdir_p (dirs : List FPath) (p : FPath) : List FPath :=
  if p ∈ dirs then dirs else dirs ++ [p]

/-- How `confirm_and_start_merge_to_new` ends. -/
inductive StartOutcome where
  | invalidSource
  | noSources
  | mergeConflict
  | cancelled
  | started
deriving DecidableEq

/-- Result of the confirm-and-start flow: its outcome, the directories
afterwards, whether a merge worker was started, and the computed target
path, if any. -/
structure StartResult where
  outcome : StartOutcome
  dirs : List FPath
  workerStarted : Bool
  target : Option FPath
deriving DecidableEq

/-- `ImageFolderTool.confirm_and_start_merge_to_new`: validate the
checked source folders, compute the target path from the alphabetically
first source name, refuse with a Merge Conflict when that path is one of
the sources (before the confirmation dialog and before any `mkdir`), ask
for confirmation, and only then create the target idempotently and start
the worker. -/
def confirm_and_start_merge_to_new (dirs : List FPath) (root : FPath)
    (checked : List FPath) (confirm : Bool) : StartResult :=
  if checked.all (fun p => decide (p ∈ dirs)) then
    match sortNames (checked.map lastName) with
    | [] => ⟨.noSources, dirs, false, none⟩
    | first :: _ =>
      let t := root ++ [targetNameFor first]
      if t ∈ checked then ⟨.mergeConflict, dirs, false, some t⟩
      else if confirm then ⟨.started, mkdir_p dirs t, true, some t⟩
      else ⟨.cancelled, dirs, false, some t⟩
  else ⟨.invalidSource, dirs, false, none⟩

/-! ## The bounded preview-task scheduler
(`ImageFolderTool.request_folder_preview`, `window.py` lines 767-824, and
`ImageFolderTool.folder_preview_task_finished`, lines 731-765)

`cached` is the set of folder paths whose cache entry is valid on disk
(a request for such a folder is served from cache and returns); folders
are assumed to be valid directories. -/

/-- A scheduler-relevant event: a preview request for a folder, or a
preview worker's terminal notification. -/
inductive SchedEvent where
  | request (f : String)
  | finish (f : String)
deriving DecidableEq

/-- Scheduler state: the keys of `folder_preview_tasks` (running
workers) and the `waiting_folders` FIFO queue. -/
structure Sched where
  running : List String
  waiting : List String
deriving DecidableEq

/-- `request_folder_preview`: serve from a valid cache entry, ignore a
duplicate of a running task, queue when `max_workers = 2` tasks run, and
otherwise start a worker. -/
def schedRequest (cached : List String) (st : Sched) (f : String) : Sched :=
  if f ∈ cached then st
  else if f ∈ st.running then st
  else if 2 ≤ st.running.length then { st with waiting := st.waiting ++ [f] }
  else { st with running := st.running ++ [f] }

/-- `folder_preview_task_finished`: drop the finishing worker from the
running table (a no-op when it is no longer tracked), then pop the head
of the waiting queue, if any, and re-submit it through
`request_folder_preview`. -/
def schedFinish (cached : List String) (st : Sched) (f : String) : Sched :=
  let st2 : Sched := ⟨st.running.erase f, st.waiting⟩
  match st2.waiting with
  | [] => st2
  | h :: rest => schedRequest cached ⟨st2.running, rest⟩ h

/-- One scheduler event. -/
def schedStep (cached : List String) (st : Sched) : SchedEvent → Sched
  | .request f => schedRequest cached st f
  | .finish f => schedFinish cached st f

/-- The scheduler state reached from the initial empty state by a
sequence of events. -/
def schedRun (cached : List String) (evs : List SchedEvent) : Sched :=
  evs.foldl (schedStep cached) ⟨[], []⟩

/-! ## Refresh carry-forward
(`ImageFolderTool.populate_subfolder_list`, `window.py` lines 626-631,
and `ImageFolderTool._handle_subfolders_found`, lines 663-708)

`cache0` is `folder_preview_cache` when the refresh results arrive,
`checkedNames` the `_checked_folder_names_cache` snapshot of checked item
names, `validImg` the set of image paths that exist and are readable,
and `subdirs` the discovered subfolders in their sorted order. -/

/-- A rebuilt list entry: its folder path, checked state and thumbnail. -/
structure SubItem where
  path : FPath
  checked : Bool
  thumb : Option String
deriving DecidableEq

/-- Result of rebuilding the subfolder list. -/
structure RefreshResult where
  items : List SubItem
  cache : List (FPath × String)
  needThumbs : List FPath
deriving DecidableEq

/-- `cached_thumbnails_by_name[n]`: the dictionary is built by iterating
the cache in order with later entries overwriting earlier ones, so a
lookup finds the image of the last cache entry whose folder name is
`n`. -/
def nameLookup (cache : List (FPath × String)) (n : String) : Option String :=
  (cache.reverse.find? (fun kv => kv.1.getLastD "" == n)).map Prod.snd

/-- Python dict assignment `cache[k] = v`: update the entry for `k` in
place when present, else append it. -/
def cacheSet : List (FPath × String) → FPath → String → List (FPath × String)
  | [], k, v => [(k, v)]
  | kv :: tl, k, v => if kv.1 == k then (k, v) :: tl else kv :: cacheSet tl k v

/-- Python dict deletion `del cache[k]` (a no-op when absent, matching
the guarded `if k in cache: del cache[k]`). -/
def cacheDel (c : List (FPath × String)) (k : FPath) : List (FPath × String) :=
  c.filter (fun kv => !(kv.1 == k))

/-- Python dict lookup `cache[k]`. -/
def cacheGet (c : List (FPath × String)) (k : FPath) : Option String :=
  (c.find? (fun kv => kv.1 == k)).map Prod.snd

/-- Body of the `for subdir in subdirs` loop of
`_handle_subfolders_found`: re-apply the checked state by name; carry a
name-matching cached preview forward to the subfolder's path when the
image is still valid on disk, else drop the entry for that path and mark
the folder as needing a fresh preview; a folder with no name match also
needs a preview. -/
def refreshStep (cache0 : List (FPath × String)) (checkedNames validImg : List String)
    (acc : RefreshResult) (d : FPath) : RefreshResult :=
  let checked := decide (lastName d ∈ checkedNames)
  match nameLookup cache0 (lastName d) with
  | some img =>
    if img ∈ validImg then
      { items := acc.items ++ [⟨d, checked, some img⟩],
        cache := cacheSet acc.cache d img, needThumbs := acc.needThumbs }
    else
      { items := acc.items ++ [⟨d, checked, none⟩],
        cache := cacheDel acc.cache d, needThumbs := acc.needThumbs ++ [d] }
  | none =>
    { items := acc.items ++ [⟨d, checked, none⟩],
      cache := acc.cache, needThumbs := acc.needThumbs ++ [d] }

/-- `_handle_subfolders_found` over the discovered subfolders: the
name-keyed thumbnail dictionary is built from the cache before the loop;
folders collected in `needThumbs` afterwards get fresh preview requests
through the throttled scheduler. -/
def handle_subfolders_found (cache0 : List (FPath × String))
    (checkedNames validImg : List String) (subdirs : List FPath) : RefreshResult :=
  subdirs.foldl (refreshStep cache0 checkedNames validImg)
    { items := [], cache := cache0, needThumbs := [] }

/-- Modelled from the spec: the per-folder outcome invariant I3 demands —
checked state matched by name, and a name-matching cached preview kept
only when still valid on disk.  Used to state the carry-forward claim. -/
def itemFor (cache0 : List (FPath × String)) (checkedNames validImg : List String)
    (d : FPath) : SubItem :=
  ⟨d, decide (lastName d ∈ checkedNames),
    match nameLookup cache0 (lastName d) with
    | some img => if img ∈ validImg then some img else none
    | none => none⟩

/-! ## Helper lemmas on path prefixes -/

theorem isPrefixOf_length {xs ys : FPath} (h : xs.isPrefixOf ys = true) :
    xs.length ≤ ys.length := by
  induction xs generalizing ys with
  | nil => simp
  | cons a as ih =>
    cases ys with
    | nil => simp [List.isPrefixOf] at h
    | cons b bs =>
      simp only [List.isPrefixOf, Bool.and_eq_true] at h
      simpa using ih h.2

theorem isPrefixOf_comparable {xs ys zs : FPath}
    (h1 : xs.isPrefixOf zs = true) (h2 : ys.isPrefixOf zs = true) :
    xs.isPrefixOf ys = true ∨ ys.isPrefixOf xs = true := by
  induction zs generalizing xs ys with
  | nil =>
    cases xs with
    | nil => left; simp [List.isPrefixOf]
    | cons a as => simp [List.isPrefixOf] at h1
  | cons c cs ih =>
    cases xs with
    | nil => left; simp [List.isPrefixOf]
    | cons a as =>
      cases ys with
      | nil => right; simp [List.isPrefixOf]
      | cons b bs =>
        simp only [List.isPrefixOf, Bool.and_eq_true, beq_iff_eq] at h1 h2 ⊢
        rcases ih h1.2 h2.2 with h | h
        · exact Or.inl ⟨h1.1.trans h2.1.symm, h⟩
        · exact Or.inr ⟨h2.1.trans h1.1.symm, h⟩

theorem isPrefixOf_concat {xs ys : FPath} {a : String}
    (h : xs.isPrefixOf (ys ++ [a]) = true) (hl : xs.length ≤ ys.length) :
    xs.isPrefixOf ys = true := by
  induction xs generalizing ys with
  | nil => simp [List.isPrefixOf]
  | cons x xt ih =>
    cases ys with
    | nil => simp at hl
    | cons y yt =>
      simp only [List.cons_append, List.isPrefixOf, Bool.and_eq_true] at h ⊢
      exact ⟨h.1, ih h.2 (by simpa using hl)⟩

/-! ## C3: the collision resolver returns fresh names -/

theorem uniqueLoop_not_mem {occ : List String} {stem sfx : String} {ts : Nat} :
    ∀ (fuel counter : Nat) (current p : String),
      uniqueLoop occ stem sfx ts fuel counter current = some p → p ∉ occ := by
  intro fuel
  induction fuel with
  | zero => intro counter current p h; simp [uniqueLoop] at h
  | succ n ih =>
    intro counter current p h
    rw [uniqueLoop] at h
    by_cases hc : current ∈ occ
    · rw [if_pos hc] at h
      by_cases hcnt : counter + 1 > 1000
      · rw [if_pos hcnt] at h
        by_cases hts : (stem ++ "_" ++ toString ts ++ sfx) ∈ occ
        · rw [if_pos hts] at h; cases h
        · rw [if_neg hts] at h
          cases h
          exact hts
      · rw [if_neg hcnt] at h
        exact ih _ _ _ h
    · rw [if_neg hc] at h
      cases h
      exact hc

/-- C3: `_generate_unique_target_path` never returns the name of an
existing entry of the target directory — in the base-name branch, the
`_n` counter branch and the timestamp fallback branch alike (the
fallback returns `None` rather than an existing name) — and when the
base name `T/F` is absent it is returned as is, so two independent calls
without creating the first result both return the base name and the
collision sequence only advances as names actually exist on disk. -/
theorem resolver_returns_fresh :
    ∀ (occ : List String) (name stem sfx : String) (ts : Nat),
      (∀ p, generate_unique_target_path occ name stem sfx ts = some p → p ∉ occ) ∧
      (name ∉ occ → generate_unique_target_path occ name stem sfx ts = some name) := by
  intro occ name stem sfx ts
  constructor
  · intro p h
    rw [generate_unique_target_path] at h
    by_cases hn : name ∈ occ
    · rw [if_pos hn] at h
      exact uniqueLoop_not_mem _ _ _ _ h
    · rw [if_neg hn] at h
      cases h
      exact hn
  · intro hn
    simp [generate_unique_target_path, hn]

/-- C3 witness: with `x.png` occupied, resolving `x.png` yields the fresh
`x_1.png`; with only `b.png` occupied, resolving `a.png` returns the base
name itself. -/
theorem resolver_returns_fresh_witness :
    (generate_unique_target_path ["x.png"] "x.png" "x" ".png" 7 = some "x_1.png" ∧
      "x_1.png" ∉ ["x.png"]) ∧
    ("a.png" ∉ ["b.png"] ∧
      generate_unique_target_path ["b.png"] "a.png" "a" ".png" 7 = some "a.png") :=
  ⟨⟨by decide,
    (resolver_returns_fresh ["x.png"] "x.png" "x" ".png" 7).1 "x_1.png" (by decide)⟩,
   ⟨by decide,
    (resolver_returns_fresh ["b.png"] "a.png" "a" ".png" 7).2 (by decide)⟩⟩

/-! ## C5: the preview search order -/

theorem firstQual_append (a b : List PreviewEntry) :
    firstQual (a ++ b) =
      match firstQual a with
      | some e => some e
      | none => firstQual b := by
  induction a with
  | nil => simp [firstQual]
  | cons e rest ih =>
    by_cases h : qualifies e <;> simp [firstQual, h, ih]

/-- C5: `_get_folder_preview_image` scans the direct entries
(1-component paths, `glob("*")`), scans them again for the depth-1
pattern, then scans the 2-component paths (`glob("*/*")`), and reports
the first entry that is a regular, readable, non-empty file with a
supported extension; equivalently it returns the first qualifying entry
of depth-1-entries ++ depth-2-entries.  In particular a qualifying image
two levels down (a 2-component path) is found whenever nothing shallower
qualifies, and `None` is reported exactly when no entry through the
2-component pattern qualifies. -/
theorem preview_search_depths :
    ∀ entries,
      get_folder_preview_image entries
        = firstQual (globDepth entries 1 ++ globDepth entries 2) ∧
      (firstQual (globDepth entries 1) = none →
        get_folder_preview_image entries = firstQual (globDepth entries 2)) ∧
      (get_folder_preview_image entries = none ↔
        firstQual (globDepth entries 1) = none ∧
          firstQual (globDepth entries 2) = none) := by
  intro entries
  have key : get_folder_preview_image entries
      = firstQual (globDepth entries 1 ++ globDepth entries 2) := by
    rw [firstQual_append]
    unfold get_folder_preview_image previewDepthLoop
    cases h : firstQual (globDepth entries 1) <;>
      cases h2 : firstQual (globDepth entries 2) <;>
        simp [previewDepthLoop, h, h2]
  refine ⟨key, ?_, ?_⟩
  · intro h0
    rw [key, firstQual_append, h0]
  · rw [key, firstQual_append]
    cases h : firstQual (globDepth entries 1) <;> simp [h]

/-- C5 witness: a folder whose direct entries are a subdirectory and a
text file, with a qualifying image one subdirectory down: nothing at
depth 1 qualifies and the search reports the depth-2 image. -/
theorem preview_search_depths_witness :
    firstQual (globDepth [⟨["sub"], false, 0, true⟩, ⟨["notes.txt"], true, 5, true⟩,
        ⟨["sub", "p.png"], true, 3, true⟩] 1) = none ∧
    get_folder_preview_image [⟨["sub"], false, 0, true⟩, ⟨["notes.txt"], true, 5, true⟩,
        ⟨["sub", "p.png"], true, 3, true⟩]
      = firstQual (globDepth [⟨["sub"], false, 0, true⟩, ⟨["notes.txt"], true, 5, true⟩,
        ⟨["sub", "p.png"], true, 3, true⟩] 2) :=
  ⟨by decide,
   (preview_search_depths [⟨["sub"], false, 0, true⟩, ⟨["notes.txt"], true, 5, true⟩,
      ⟨["sub", "p.png"], true, 3, true⟩]).2.1 (by decide)⟩

/-! ## C10: a merge task with invalid inputs -/

/-- C10: a merge worker whose source list is empty or whose target is
unset takes the invalid-inputs branch of `run`: it moves nothing, leaves
the filesystem untouched, emits the invalid-inputs error, and still
emits exactly one terminal notification, `("merge_subs", False)`. -/
theorem merge_invalid_inputs :
    ∀ (failMove rmFail : List FPath) (ts : Nat) (sources : List FPath)
      (target : Option FPath) (files dirs : List FPath),
      sources = [] ∨ target = none →
      workerRunMerge failMove rmFail ts sources target files dirs =
        { result := none, finished := [("merge_subs", false)], inputError := true,
          filesAfter := files, dirsAfter := dirs } := by
  intro fm rf ts sources target files dirs h
  rcases h with h | h
  · subst h
    cases target <;> rfl
  · subst h
    cases sources <;> rfl

/-- C10 witness: an empty source list with a set target. -/
theorem merge_invalid_inputs_witness :
    (([] : List FPath) = [] ∨ (some (["T"] : FPath)) = none) ∧
    workerRunMerge [] [] 0 [] (some ["T"]) [["f.png"]] [["T"]] =
      { result := none, finished := [("merge_subs", false)], inputError := true,
        filesAfter := [["f.png"]], dirsAfter := [["T"]] } :=
  ⟨Or.inl rfl,
   merge_invalid_inputs [] [] 0 [] (some ["T"]) [["f.png"]] [["T"]] (Or.inl rfl)⟩

/-! ## C1: the terminal success flag -/

/-- C1 (code bug): the claim — and `_merge_subfolders_to_target` itself,
which sets `_success = False` and reports "Merge partially complete"
when `skipped_count > 0` — require the terminal notification to carry
`success = False` whenever a file was skipped; but `run` overwrites the
flag with `True` right after the merge call (worker.py line 71,
`self._success = True  # Assume success if no major exception`).  On a
completed, non-cancelled merge with an existing target whose single file
fails to move, the code emits `("merge_subs", True)` although
`skippedCount = 1` and the merge's own flag was `False`. -/
theorem run_reports_success_despite_skip :
    (workerRunMerge [["S", "a.png"]] [] 0 [["S"]] (some ["T"])
        [["S", "a.png"]] [["S"], ["T"]]).finished = [("merge_subs", true)] ∧
    (workerRunMerge [["S", "a.png"]] [] 0 [["S"]] (some ["T"])
        [["S", "a.png"]] [["S"], ["T"]]).result.map MergeResult.skipped = some 1 ∧
    (workerRunMerge [["S", "a.png"]] [] 0 [["S"]] (some ["T"])
        [["S", "a.png"]] [["S"], ["T"]]).result.map MergeResult.innerSuccess
      = some false := by
  refine ⟨rfl, ?_, ?_⟩ <;> decide

/-! ## Lemmas on the Python string order -/

theorem uint32_toNat_inj {a b : UInt32} (h : a.toNat = b.toNat) : a = b := by
  cases a
  cases b
  congr 1
  exact BitVec.eq_of_toNat_eq h

theorem char_toNat_inj {a b : Char} (h : a.toNat = b.toNat) : a = b :=
  Char.eq_of_val_eq (uint32_toNat_inj h)

theorem charListLt_trans : ∀ {as bs cs : List Char},
    charListLt as bs = true → charListLt bs cs = true → charListLt as cs = true := by
  intro as
  induction as with
  | nil =>
    intro bs cs h1 h2
    cases bs with
    | nil => simp [charListLt] at h1
    | cons b bt =>
      cases cs with
      | nil => simp [charListLt] at h2
      | cons c ct => simp [charListLt]
  | cons a tl ih =>
    intro bs cs h1 h2
    cases bs with
    | nil => simp [charListLt] at h1
    | cons b bt =>
      cases cs with
      | nil => simp [charListLt] at h2
      | cons c ct =>
        simp only [charListLt, Bool.or_eq_true, Bool.and_eq_true,
          decide_eq_true_eq] at h1 h2 ⊢
        rcases h1 with h1 | ⟨he1, h1⟩ <;> rcases h2 with h2 | ⟨he2, h2⟩
        · exact Or.inl (Nat.lt_trans h1 h2)
        · exact Or.inl (he2 ▸ h1)
        · exact Or.inl (he1 ▸ h2)
        · exact Or.inr ⟨he1.trans he2, ih h1 h2⟩

theorem charListLt_total_or_eq : ∀ (as bs : List Char),
    charListLt as bs = true ∨ charListLt bs as = true ∨ as = bs := by
  intro as
  induction as with
  | nil =>
    intro bs
    cases bs with
    | nil => exact Or.inr (Or.inr rfl)
    | cons b bt => exact Or.inl (by simp [charListLt])
  | cons a tl ih =>
    intro bs
    cases bs with
    | nil => exact Or.inr (Or.inl (by simp [charListLt]))
    | cons b bt =>
      rcases Nat.lt_trichotomy a.toNat b.toNat with h | h | h
      · exact Or.inl (by simp [charListLt, h])
      · rcases ih bt with h2 | h2 | h2
        · exact Or.inl (by simp [charListLt, h, h2])
        · exact Or.inr (Or.inl (by simp [charListLt, h.symm, h2]))
        · exact Or.inr (Or.inr (by rw [char_toNat_inj h, h2]))
      · exact Or.inr (Or.inl (by simp [charListLt, h]))

theorem pyStrLe_refl (a : String) : pyStrLe a a = true := by
  simp [pyStrLe]

theorem pyStrLe_total (a b : String) : pyStrLe a b = true ∨ pyStrLe b a = true := by
  rcases charListLt_total_or_eq a.toList b.toList with h | h | h
  · left
    simp only [pyStrLe, Bool.or_eq_true, beq_iff_eq]
    exact Or.inl h
  · right
    simp only [pyStrLe, Bool.or_eq_true, beq_iff_eq]
    exact Or.inl h
  · left
    simp only [pyStrLe, Bool.or_eq_true, beq_iff_eq]
    exact Or.inr h

theorem pyStrLe_trans {a b c : String} (h1 : pyStrLe a b = true)
    (h2 : pyStrLe b c = true) : pyStrLe a c = true := by
  simp only [pyStrLe, Bool.or_eq_true, beq_iff_eq] at h1 h2 ⊢
  rcases h1 with h1 | h1 <;> rcases h2 with h2 | h2
  · exact Or.inl (charListLt_trans h1 h2)
  · exact Or.inl (h2 ▸ h1)
  · exact Or.inl (h1 ▸ h2)
  · exact Or.inr (h1.trans h2)

/-! ## C6: the automatic merge-target name -/

theorem orderedInsert_min (l : List String) (a first : String) (rest : List String)
    (hmin : ∀ f2 r2, l = f2 :: r2 → ∀ n ∈ l, pyStrLe f2 n = true)
    (h : List.orderedInsert (fun x y : String => pyStrLe x y = true) a l
      = first :: rest) :
    (first = a ∨ first ∈ l) ∧ (∀ n, (n = a ∨ n ∈ l) → pyStrLe first n = true) := by
  cases l with
  | nil =>
    simp only [List.orderedInsert] at h
    obtain ⟨rfl, rfl⟩ := List.cons.inj h
    refine ⟨Or.inl rfl, ?_⟩
    intro n hn
    rcases hn with h3 | hn
    · subst h3; exact pyStrLe_refl _
    · cases hn
  | cons b t =>
    simp only [List.orderedInsert] at h
    by_cases hab : pyStrLe a b = true
    · rw [if_pos hab] at h
      obtain ⟨rfl, rfl⟩ := List.cons.inj h
      refine ⟨Or.inl rfl, ?_⟩
      intro n hn
      rcases hn with h3 | hn
      · subst h3; exact pyStrLe_refl _
      rcases List.mem_cons.1 hn with h4 | hn
      · subst h4; exact hab
      · exact pyStrLe_trans hab (hmin b t rfl n (List.mem_cons_of_mem b hn))
    · rw [if_neg hab] at h
      obtain ⟨rfl, rfl⟩ := List.cons.inj h
      refine ⟨Or.inr (List.mem_cons_self _ _), ?_⟩
      intro n hn
      rcases hn with h3 | hn
      · subst h3
        rcases pyStrLe_total n b with h2 | h2
        · exact absurd h2 hab
        · exact h2
      rcases List.mem_cons.1 hn with h4 | hn
      · subst h4; exact pyStrLe_refl _
      · exact hmin b t rfl n (List.mem_cons_of_mem b hn)

theorem sortNames_min : ∀ (l : List String) (first : String) (rest : List String),
    sortNames l = first :: rest →
      first ∈ l ∧ ∀ n ∈ l, pyStrLe first n = true := by
  intro l
  induction l with
  | nil =>
    intro first rest h
    simp [sortNames, List.insertionSort] at h
  | cons b t ih =>
    intro first rest h
    rw [sortNames, List.insertionSort] at h
    have hmin : ∀ f2 r2,
        List.insertionSort (fun x y : String => pyStrLe x y = true) t = f2 :: r2 →
        ∀ n ∈ List.insertionSort (fun x y : String => pyStrLe x y = true) t,
          pyStrLe f2 n = true := by
      intro f2 r2 h2 n hn
      exact (ih f2 r2 h2).2 n ((List.mem_insertionSort _).1 hn)
    obtain ⟨hfst, hall⟩ := orderedInsert_min _ b first rest hmin h
    constructor
    · rcases hfst with rfl | hf
      · exact List.mem_cons_self _ _
      · exact List.mem_cons_of_mem _ ((List.mem_insertionSort _).1 hf)
    · intro n hn
      rcases List.mem_cons.1 hn with rfl | hn
      · exact hall n (Or.inl rfl)
      · exact hall n (Or.inr ((List.mem_insertionSort _).2 hn))

/-- C6: the automatically chosen merge target is
`<root>/<name>_merged` where `<name>` is the alphabetically (code-point)
first checked-source name — the head of the ascending sort — or
`<root>/<name>1` when that name already contains `_merged` under the
case-insensitive substring check; and the target directory is created
idempotently (`mkdir(parents=True, exist_ok=True)`), so an existing
target is reused rather than causing a failure. -/
theorem merge_target_naming :
    ∀ (names : List String) (dirs : List FPath) (t : FPath),
      (∀ first rest, sortNames names = first :: rest →
        first ∈ names ∧ (∀ n ∈ names, pyStrLe first n = true) ∧
        merge_target_name names
          = some (if containsMergedCI first then first ++ "1"
              else first ++ "_merged")) ∧
      (names ≠ [] → merge_target_name names ≠ none) ∧
      (t ∈ mkdir_p dirs t ∧ (t ∈ dirs → mkdir_p dirs t = dirs)) := by
  intro names dirs t
  refine ⟨?_, ?_, ?_, ?_⟩
  · intro first rest h
    obtain ⟨hmem, hle⟩ := sortNames_min names first rest h
    refine ⟨hmem, hle, ?_⟩
    simp only [merge_target_name, h]
    rfl
  · intro hne h
    rw [merge_target_name] at h
    cases hs : sortNames names with
    | nil =>
      have : names.length = 0 := by
        have := List.length_insertionSort
          (fun x y : String => pyStrLe x y = true) names
        rw [show List.insertionSort (fun x y : String => pyStrLe x y = true) names
            = sortNames names from rfl, hs] at this
        simpa using this.symm
      exact hne (List.length_eq_zero.1 this)
    | cons a l => rw [hs] at h; cases h
  · by_cases h : t ∈ dirs
    · simp [mkdir_p, h]
    · simp [mkdir_p, h]
  · intro h
    simp [mkdir_p, h]

/-- C6 witness: of the two checked names, `alpha_Merged` sorts first and
already contains `_merged` case-insensitively, so the target name is
`alpha_Merged1`; and creating an already-present directory is a no-op. -/
theorem merge_target_naming_witness :
    sortNames ["pics", "alpha_Merged"] = "alpha_Merged" :: ["pics"] ∧
    ("alpha_Merged" ∈ ["pics", "alpha_Merged"] ∧
      (∀ n ∈ ["pics", "alpha_Merged"], pyStrLe "alpha_Merged" n = true) ∧
      merge_target_name ["pics", "alpha_Merged"]
        = some (if containsMergedCI "alpha_Merged" then "alpha_Merged" ++ "1"
            else "alpha_Merged" ++ "_merged")) ∧
    (["R", "x"] : FPath) ∈ mkdir_p [["R", "x"]] ["R", "x"] ∧
    (["R", "x"] ∈ ([["R", "x"]] : List FPath) →
      mkdir_p [["R", "x"]] ["R", "x"] = [["R", "x"]]) :=
  ⟨by decide,
   (merge_target_naming ["pics", "alpha_Merged"] [["R", "x"]] ["R", "x"]).1
     "alpha_Merged" ["pics"] (by decide),
   (merge_target_naming ["pics", "alpha_Merged"] [["R", "x"]] ["R", "x"]).2.2.1,
   fun h => ((merge_target_naming ["pics", "alpha_Merged"] [["R", "x"]]
     ["R", "x"]).2.2.2) h⟩

/-! ## C7: the pre-merge conflict refusal -/

/-- C7: when the computed target path is one of the checked source
folders, `confirm_and_start_merge_to_new` returns the Merge Conflict
refusal before the confirmation dialog and before any `mkdir`: the
directory set is unchanged and no merge worker is started. -/
theorem merge_conflict_refuses :
    ∀ (dirs : List FPath) (root : FPath) (checked : List FPath) (confirm : Bool)
      (first : String) (rest : List String),
      checked.all (fun p => decide (p ∈ dirs)) = true →
      sortNames (checked.map lastName) = first :: rest →
      root ++ [targetNameFor first] ∈ checked →
      confirm_and_start_merge_to_new dirs root checked confirm =
        ⟨.mergeConflict, dirs, false, some (root ++ [targetNameFor first])⟩ := by
  intro dirs root checked confirm first rest hall hsort hmem
  rw [confirm_and_start_merge_to_new, if_pos hall, hsort]
  simp only [if_pos hmem]

/-- C7 witness: sources `a` and `a_merged` under root `R`: the first
sorted name is `a`, the computed target `R/a_merged` is itself a checked
source, and the flow refuses without touching the directory set or
starting a worker. -/
theorem merge_conflict_refuses_witness :
    confirm_and_start_merge_to_new [["R", "a"], ["R", "a_merged"]] ["R"]
        [["R", "a"], ["R", "a_merged"]] true =
      ⟨.mergeConflict, [["R", "a"], ["R", "a_merged"]], false,
        some (["R"] ++ [targetNameFor "a"])⟩ :=
  merge_conflict_refuses [["R", "a"], ["R", "a_merged"]] ["R"]
    [["R", "a"], ["R", "a_merged"]] true "a" ["a_merged"]
    (by decide) (by decide) (by decide)

/-! ## C8: the bounded preview pool -/

theorem schedRequest_len {cached : List String} {st : Sched} {f : String}
    (h : st.running.length ≤ 2) :
    (schedRequest cached st f).running.length ≤ 2 := by
  rw [schedRequest]
  by_cases h1 : f ∈ cached
  · rw [if_pos h1]; exact h
  rw [if_neg h1]
  by_cases h2 : f ∈ st.running
  · rw [if_pos h2]; exact h
  rw [if_neg h2]
  by_cases h3 : 2 ≤ st.running.length
  · rw [if_pos h3]; exact h
  · rw [if_neg h3]
    simp only [List.length_append, List.length_cons, List.length_nil]
    omega

theorem schedStep_len {cached : List String} {st : Sched} (e : SchedEvent)
    (h : st.running.length ≤ 2) :
    (schedStep cached st e).running.length ≤ 2 := by
  cases e with
  | request f => exact schedRequest_len h
  | finish f =>
    rw [schedStep, schedFinish]
    have herase : (st.running.erase f).length ≤ 2 :=
      le_trans (List.erase_sublist f st.running).length_le h
    cases hw : st.waiting with
    | nil => exact herase
    | cons hd tl => exact schedRequest_len herase

theorem schedRun_bound_aux (cached : List String) :
    ∀ (evs : List SchedEvent) (st : Sched), st.running.length ≤ 2 →
      (evs.foldl (schedStep cached) st).running.length ≤ 2 := by
  intro evs
  induction evs with
  | nil => intro st h; exact h
  | cons e rest ih =>
    intro st h
    exact ih _ (schedStep_len e h)

/-- C8 (amended): the preview pool invariant holds — at most 2 preview
tasks run at every reachable scheduler state, and a request arriving
while 2 run and the folder is neither cached nor already running is
appended to the FIFO queue — and on a terminal notification the queue
head is dequeued and re-submitted through the request path, which starts
it provided it is not served from cache and is not a duplicate of a
still-running task (a cached or duplicate head is dropped without a
replacement being started; see the counterexample). -/
theorem preview_pool_throttle :
    ∀ (cached : List String) (evs : List SchedEvent) (st : Sched)
      (f h : String) (rest : List String),
      ((schedRun cached evs).running.length ≤ 2) ∧
      (st.running.length = 2 → f ∉ cached → f ∉ st.running →
        schedRequest cached st f = ⟨st.running, st.waiting ++ [f]⟩) ∧
      (f ∈ st.running → st.running.length ≤ 2 → st.waiting = h :: rest →
        h ∉ cached → h ∉ st.running.erase f →
        schedFinish cached st f = ⟨st.running.erase f ++ [h], rest⟩) := by
  intro cached evs st f h rest
  refine ⟨schedRun_bound_aux cached evs ⟨[], []⟩ (by simp), ?_, ?_⟩
  · intro hlen hc hr
    rw [schedRequest, if_neg hc, if_neg hr, if_pos (le_of_eq hlen.symm)]
  · intro hf hlen hw hc hr
    rw [schedFinish]
    have h1 : 1 ≤ st.running.length := by
      cases hrun : st.running with
      | nil => rw [hrun] at hf; cases hf
      | cons x xs => simp [hrun]
    have hershort : ¬ 2 ≤ (st.running.erase f).length := by
      rw [List.length_erase_of_mem hf]
      omega
    simp only [hw]
    rw [schedRequest, if_neg hc, if_neg hr, if_neg hershort]

/-- C8 witness for the amended theorem: with `A` and `B` running and `C`
waiting, `A`'s terminal notification dequeues `C` and starts it. -/
theorem preview_pool_throttle_witness :
    ("A" : String) ∈ (Sched.mk ["A", "B"] ["C"]).running ∧
    schedFinish [] ⟨["A", "B"], ["C"]⟩ "A" =
      ⟨(["A", "B"] : List String).erase "A" ++ ["C"], []⟩ :=
  ⟨by decide,
   (preview_pool_throttle [] [] ⟨["A", "B"], ["C"]⟩ "A" "C" []).2.2
     (by decide) (by decide) rfl (by decide) (by decide)⟩

/-- C8 counterexample to the claim as stated: folder `C` is requested
twice while the pool is full, so it sits in the queue twice.  When `A`
finishes, the first `C` is dequeued and started; when `B` finishes, the
second `C` is dequeued but is already running, so the request path drops
it and nothing is started: the running set shrinks from `[B, C]` to
`[C]` although the queue head existed — the claim's "exactly the head of
the queue is dequeued **and started**, one-in-one-out" fails. -/
theorem preview_pool_one_in_one_out_counterexample :
    (schedRun [] [SchedEvent.request "A", SchedEvent.request "B",
        SchedEvent.request "C", SchedEvent.request "C",
        SchedEvent.finish "A"]).running = ["B", "C"] ∧
    (schedRun [] [SchedEvent.request "A", SchedEvent.request "B",
        SchedEvent.request "C", SchedEvent.request "C",
        SchedEvent.finish "A"]).waiting = ["C"] ∧
    (schedRun [] [SchedEvent.request "A", SchedEvent.request "B",
        SchedEvent.request "C", SchedEvent.request "C",
        SchedEvent.finish "A", SchedEvent.finish "B"]).running = ["C"] ∧
    (schedRun [] [SchedEvent.request "A", SchedEvent.request "B",
        SchedEvent.request "C", SchedEvent.request "C",
        SchedEvent.finish "A", SchedEvent.finish "B"]).waiting = [] := by
  decide

/-! ## C9: refresh carry-forward -/

theorem cacheGet_set : ∀ (c : List (FPath × String)) (k k' : FPath) (v : String),
    cacheGet (cacheSet c k' v) k = if k = k' then some v else cacheGet c k := by
  intro c
  induction c with
  | nil =>
    intro k k' v
    by_cases h : k = k'
    · subst h
      simp [cacheSet, cacheGet, List.find?]
    · have e1 : (k' == k) = false := beq_eq_false_iff_ne.mpr fun h2 => h h2.symm
      simp [cacheSet, cacheGet, List.find?, e1, h]
  | cons kv tl ih =>
    intro k k' v
    by_cases h1 : kv.1 = k'
    · rw [cacheSet, if_pos (beq_iff_eq.mpr h1)]
      by_cases h2 : k = k'
      · subst h2
        simp [cacheGet, List.find?]
      · have e1 : (k' == k) = false := beq_eq_false_iff_ne.mpr fun h3 => h2 h3.symm
        have e2 : (kv.1 == k) = false :=
          beq_eq_false_iff_ne.mpr fun h3 => h2 (h3.symm.trans h1)
        simp [cacheGet, List.find?, e1, e2, h2]
    · rw [cacheSet, if_neg (by simp [h1])]
      by_cases h2 : kv.1 = k
      · have hk : ¬ k = k' := fun h3 => h1 (h2.trans h3)
        have e2 : (kv.1 == k) = true := beq_iff_eq.mpr h2
        simp [cacheGet, List.find?, e2, hk]
      · have e2 : (kv.1 == k) = false := beq_eq_false_iff_ne.mpr h2
        have l1 : cacheGet (kv :: cacheSet tl k' v) k = cacheGet (cacheSet tl k' v) k := by
          simp [cacheGet, List.find?, e2]
        have l2 : cacheGet (kv :: tl) k = cacheGet tl k := by
          simp [cacheGet, List.find?, e2]
        rw [l1, ih k k' v, l2]

theorem cacheGet_del : ∀ (c : List (FPath × String)) (k k' : FPath),
    cacheGet (cacheDel c k') k = if k = k' then none else cacheGet c k := by
  intro c
  induction c with
  | nil =>
    intro k k'
    by_cases h : k = k' <;> simp [cacheDel, cacheGet, h]
  | cons kv tl ih =>
    intro k k'
    rw [cacheDel, List.filter_cons]
    by_cases h1 : kv.1 = k'
    · have e1 : (!(kv.1 == k')) = false := by simp [h1]
      rw [e1]
      simp only [Bool.false_eq_true, if_false]
      rw [show List.filter (fun kv => !(kv.1 == k')) tl = cacheDel tl k' from rfl, ih]
      by_cases h2 : k = k'
      · simp [h2]
      · have e2 : (kv.1 == k) = false :=
          beq_eq_false_iff_ne.mpr fun h3 => h2 (h3.symm.trans h1)
        simp [h2, cacheGet, List.find?, e2]
    · have e1 : (!(kv.1 == k')) = true := by simp [h1]
      rw [e1]
      simp only [if_true]
      by_cases h2 : kv.1 = k
      · have hk : ¬ k = k' := fun h3 => h1 (h2.trans h3)
        have e2 : (kv.1 == k) = true := beq_iff_eq.mpr h2
        simp [cacheGet, List.find?, e2, hk]
      · have e2 : (kv.1 == k) = false := beq_eq_false_iff_ne.mpr h2
        have l1 : cacheGet (kv :: List.filter (fun kv => !(kv.1 == k')) tl) k
            = cacheGet (List.filter (fun kv => !(kv.1 == k')) tl) k := by
          simp [cacheGet, List.find?, e2]
        have l2 : cacheGet (kv :: tl) k = cacheGet tl k := by
          simp [cacheGet, List.find?, e2]
        rw [l1, show List.filter (fun kv => !(kv.1 == k')) tl = cacheDel tl k' from rfl,
          ih, l2]

theorem refreshStep_cacheGet {cache0 : List (FPath × String)}
    {checkedNames validImg : List String} {d : FPath} {img : String}
    (hd : nameLookup cache0 (lastName d) = some img) :
    ∀ (acc : RefreshResult) (x : FPath),
      cacheGet ((refreshStep cache0 checkedNames validImg acc x).cache) d
        = if x = d then (if img ∈ validImg then some img else none)
          else cacheGet acc.cache d := by
  intro acc x
  by_cases hx : x = d
  · subst hx
    by_cases hv : img ∈ validImg <;>
      simp [refreshStep, hd, hv, cacheGet_set, cacheGet_del]
  · cases hl : nameLookup cache0 (lastName x) with
    | none =>
      simp only [refreshStep, hl]
      rw [if_neg hx]
    | some img2 =>
      have hdx : ¬ d = x := fun h => hx h.symm
      by_cases hv : img2 ∈ validImg
      · simp only [refreshStep, hl, if_pos hv]
        rw [cacheGet_set, if_neg hdx, if_neg hx]
      · simp only [refreshStep, hl, if_neg hv]
        rw [cacheGet_del, if_neg hdx, if_neg hx]

theorem refresh_fold_cacheGet_keep {cache0 : List (FPath × String)}
    {checkedNames validImg : List String} {d : FPath} {img : String}
    (hd : nameLookup cache0 (lastName d) = some img) :
    ∀ (l : List FPath) (acc : RefreshResult),
      cacheGet acc.cache d = (if img ∈ validImg then some img else none) →
      cacheGet ((l.foldl (refreshStep cache0 checkedNames validImg) acc).cache) d
        = (if img ∈ validImg then some img else none) := by
  intro l
  induction l with
  | nil => intro acc h; exact h
  | cons x tl ih =>
    intro acc h
    rw [List.foldl_cons]
    apply ih
    rw [refreshStep_cacheGet hd]
    by_cases hx : x = d
    · rw [if_pos hx]
    · rw [if_neg hx]; exact h

theorem refresh_fold_cacheGet {cache0 : List (FPath × String)}
    {checkedNames validImg : List String} {d : FPath} {img : String}
    (hd : nameLookup cache0 (lastName d) = some img) :
    ∀ (l : List FPath) (acc : RefreshResult), d ∈ l →
      cacheGet ((l.foldl (refreshStep cache0 checkedNames validImg) acc).cache) d
        = (if img ∈ validImg then some img else none) := by
  intro l
  induction l with
  | nil => intro acc h; cases h
  | cons x tl ih =>
    intro acc hmem
    rcases List.mem_cons.1 hmem with h | h
    · by_cases hdtl : d ∈ tl
      · rw [List.foldl_cons]; exact ih _ hdtl
      · rw [List.foldl_cons]
        apply refresh_fold_cacheGet_keep hd
        rw [refreshStep_cacheGet hd, if_pos h.symm]
    · rw [List.foldl_cons]; exact ih _ h

theorem refresh_fold_items (cache0 : List (FPath × String))
    (checkedNames validImg : List String) :
    ∀ (l : List FPath) (acc : RefreshResult),
      (l.foldl (refreshStep cache0 checkedNames validImg) acc).items
        = acc.items ++ l.map (itemFor cache0 checkedNames validImg) := by
  intro l
  induction l with
  | nil => intro acc; simp
  | cons x tl ih =>
    intro acc
    rw [List.foldl_cons, ih]
    cases hl : nameLookup cache0 (lastName x) with
    | none => simp [refreshStep, hl, itemFor]
    | some img =>
      by_cases hv : img ∈ validImg <;> simp [refreshStep, hl, hv, itemFor]

theorem refresh_fold_needs (cache0 : List (FPath × String))
    (checkedNames validImg : List String) :
    ∀ (l : List FPath) (acc : RefreshResult),
      (l.foldl (refreshStep cache0 checkedNames validImg) acc).needThumbs
        = acc.needThumbs
          ++ l.filter (fun d => (itemFor cache0 checkedNames validImg d).thumb.isNone) := by
  intro l
  induction l with
  | nil => intro acc; simp
  | cons x tl ih =>
    intro acc
    rw [List.foldl_cons, ih, List.filter_cons]
    cases hl : nameLookup cache0 (lastName x) with
    | none => simp [refreshStep, hl, itemFor]
    | some img =>
      by_cases hv : img ∈ validImg <;> simp [refreshStep, hl, hv, itemFor]

/-- C9: rebuilding the subfolder list after a re-scan re-creates each
discovered subfolder in the checked state exactly when its name was
checked before; a cached preview whose original folder name matches the
new subfolder's name is carried forward to the new path when the image
file is still valid on disk — the rebuilt cache answers the new path
with that image — while an invalid cached entry yields no thumbnail and
is dropped for that path, the folder joining `needThumbs`, the list for
which fresh previews are then requested. -/
theorem refresh_carry_forward :
    ∀ (cache0 : List (FPath × String)) (checkedNames validImg : List String)
      (subdirs : List FPath),
      (handle_subfolders_found cache0 checkedNames validImg subdirs).items
        = subdirs.map (itemFor cache0 checkedNames validImg) ∧
      (handle_subfolders_found cache0 checkedNames validImg subdirs).needThumbs
        = subdirs.filter
            (fun d => (itemFor cache0 checkedNames validImg d).thumb.isNone) ∧
      (∀ d img, d ∈ subdirs → nameLookup cache0 (lastName d) = some img →
        cacheGet (handle_subfolders_found cache0 checkedNames validImg subdirs).cache d
          = (if img ∈ validImg then some img else none)) := by
  intro cache0 cn vi subdirs
  refine ⟨?_, ?_, ?_⟩
  · rw [handle_subfolders_found, refresh_fold_items]
    simp
  · rw [handle_subfolders_found, refresh_fold_needs]
    simp
  · intro d img hmem hl
    exact refresh_fold_cacheGet hl subdirs _ hmem

/-- C9 witness: the cache holds a preview for a folder named `A` under an
old path; after the refresh discovers `R/A` and `R/B`, the still-valid
image is carried forward to the new path `R/A`. -/
theorem refresh_carry_forward_witness :
    (["R", "A"] : FPath) ∈ [["R", "A"], ["R", "B"]] ∧
    nameLookup [(["Old", "A"], "img1.png")] (lastName ["R", "A"]) = some "img1.png" ∧
    cacheGet (handle_subfolders_found [(["Old", "A"], "img1.png")] ["A"] ["img1.png"]
        [["R", "A"], ["R", "B"]]).cache ["R", "A"]
      = (if "img1.png" ∈ ["img1.png"] then some "img1.png" else none) :=
  ⟨by decide, by decide,
   (refresh_carry_forward [(["Old", "A"], "img1.png")] ["A"] ["img1.png"]
     [["R", "A"], ["R", "B"]]).2.2 ["R", "A"] "img1.png" (by decide) (by decide)⟩

/-! ## C2: merge conservation -/

theorem processFile_count (failMove dirs : List FPath) (T : FPath) (ts : Nat)
    (st : MergeState) (f : FPath) :
    (processFile failMove dirs T ts st f).moved
        + (processFile failMove dirs T ts st f).skipped
      = st.moved + st.skipped + 1 := by
  simp only [processFile]
  split
  · simp
    omega
  · split
    · simp
      omega
    · simp
      omega

theorem foldl_processFile_count (failMove dirs : List FPath) (T : FPath) (ts : Nat) :
    ∀ (snap : List FPath) (st : MergeState),
      (snap.foldl (processFile failMove dirs T ts) st).moved
          + (snap.foldl (processFile failMove dirs T ts) st).skipped
        = st.moved + st.skipped + snap.length := by
  intro snap
  induction snap with
  | nil => intro st; simp
  | cons f tl ih =>
    intro st
    rw [List.foldl_cons, ih (processFile failMove dirs T ts st f)]
    have h2 := processFile_count failMove dirs T ts st f
    simp only [List.length_cons]
    omega

theorem filter_erase_of_neg {p : FPath → Bool} : ∀ (l : List FPath) (a : FPath),
    p a = false → (l.erase a).filter p = l.filter p := by
  intro l
  induction l with
  | nil => intro a h; rfl
  | cons b tl ih =>
    intro a h
    rw [List.erase_cons]
    by_cases hb : b = a
    · subst hb
      rw [if_pos (by simp)]
      rw [List.filter_cons, h]
      simp
    · rw [if_neg (by simp [hb])]
      rw [List.filter_cons, List.filter_cons]
      cases hp : p b <;> simp [hp, ih a h]

theorem foldl_processFile_filter (failMove dirs : List FPath) (T : FPath) (ts : Nat)
    (p : FPath → Bool) (hT : ∀ n, p (T ++ [n]) = false) :
    ∀ (snap : List FPath) (st : MergeState),
      (∀ f ∈ snap, p f = false) →
      ((snap.foldl (processFile failMove dirs T ts) st).files.filter p
        = st.files.filter p) := by
  intro snap
  induction snap with
  | nil => intro st _; rfl
  | cons f tl ih =>
    intro st h
    rw [List.foldl_cons, ih _ (fun g hg => h g (List.mem_cons_of_mem f hg))]
    have hf : p f = false := h f (List.mem_cons_self f tl)
    simp only [processFile]
    split
    · rfl
    · split
      · rfl
      · simp only
        rw [List.filter_append, filter_erase_of_neg _ _ hf]
        simp [hT]

theorem sourceStep_count (failMove dirs : List FPath) (T : FPath) (ts : Nat)
    (st : MergeState) (S : FPath) (hS : S ∈ dirs) :
    (sourceStep failMove dirs T ts st S).moved
        + (sourceStep failMove dirs T ts st S).skipped
      = st.moved + st.skipped
        + (st.files.filter (fun f => isUnder S f)).length := by
  simp only [sourceStep, if_pos hS]
  exact foldl_processFile_count failMove dirs T ts _ st

theorem sourceStep_filter (failMove dirs : List FPath) (T : FPath) (ts : Nat)
    (p : FPath → Bool) (hT : ∀ n, p (T ++ [n]) = false)
    (st : MergeState) (S : FPath)
    (hdisj : ∀ f, isUnder S f = true → p f = false) :
    (sourceStep failMove dirs T ts st S).files.filter p = st.files.filter p := by
  rw [sourceStep]
  by_cases hS : S ∈ dirs
  · rw [if_pos hS]
    exact foldl_processFile_filter failMove dirs T ts p hT _ st
      (fun f hf => hdisj f (List.of_mem_filter hf))
  · rw [if_neg hS]

theorem mergeLoop_conservation (failMove dirs : List FPath) (T : FPath) (ts : Nat) :
    ∀ (sources : List FPath) (st : MergeState),
      (∀ S ∈ sources, S ∈ dirs) →
      List.Pairwise
        (fun a b => a.isPrefixOf b = false ∧ b.isPrefixOf a = false) sources →
      (∀ S ∈ sources, S.isPrefixOf T = false) →
      ((sources.foldl (sourceStep failMove dirs T ts) st).moved
          + (sources.foldl (sourceStep failMove dirs T ts) st).skipped
        = st.moved + st.skipped
          + (sources.map
              (fun S => (st.files.filter (fun f => isUnder S f)).length)).sum) := by
  intro sources
  induction sources with
  | nil => intro st _ _ _; simp
  | cons S rest ih =>
    intro st h1 h2 h3
    rw [List.foldl_cons]
    have hS : S ∈ dirs := h1 S (List.mem_cons_self S rest)
    rw [List.pairwise_cons] at h2
    obtain ⟨hSrest, hrest⟩ := h2
    rw [ih (sourceStep failMove dirs T ts st S)
      (fun S2 hS2 => h1 S2 (List.mem_cons_of_mem S hS2)) hrest
      (fun S2 hS2 => h3 S2 (List.mem_cons_of_mem S hS2))]
    have hc := sourceStep_count failMove dirs T ts st S hS
    have hmap : (rest.map (fun S2 =>
        (((sourceStep failMove dirs T ts st S).files.filter
          (fun f => isUnder S2 f)).length)))
        = rest.map (fun S2 => (st.files.filter (fun f => isUnder S2 f)).length) := by
      apply List.map_congr_left
      intro S2 hS2
      congr 1
      apply sourceStep_filter failMove dirs T ts _ ?_ st S ?_
      · intro n
        by_contra hcon
        rw [Bool.not_eq_false, isUnder, Bool.and_eq_true, decide_eq_true_eq] at hcon
        obtain ⟨hpre, hlen⟩ := hcon
        have hlen2 : S2.length ≤ T.length := by
          simp only [List.length_append, List.length_cons, List.length_nil] at hlen
          omega
        have hpt := isPrefixOf_concat hpre hlen2
        exact absurd ((h3 S2 (List.mem_cons_of_mem S hS2)).symm.trans hpt)
          Bool.false_ne_true
      · intro f hf
        by_contra hcon
        rw [Bool.not_eq_false] at hcon
        rw [isUnder, Bool.and_eq_true, decide_eq_true_eq] at hf hcon
        rcases isPrefixOf_comparable hf.1 hcon.1 with h | h
        · exact absurd ((hSrest S2 hS2).1.symm.trans h) Bool.false_ne_true
        · exact absurd ((hSrest S2 hS2).2.symm.trans h) Bool.false_ne_true
    rw [hmap]
    simp only [List.map_cons, List.sum_cons]
    omega

/-- C2 (amended): for a merge, run to completion without cancellation,
whose target exists, whose source directories are all valid, pairwise
non-nested, and none of which contains the target,
`movedCount + skippedCount` equals the total number of files recursively
under the sources at merge start (each file counted once: under
disjointness the per-source sum counts the union) — every file is moved
or skipped (unique-name failure or move failure) and the per-file loop
never aborts on a move error. -/
theorem merge_conservation :
    ∀ (failMove rmFail : List FPath) (ts : Nat) (sources : List FPath)
      (T : FPath) (files dirs : List FPath),
      T ∈ dirs →
      (∀ S ∈ sources, S ∈ dirs) →
      List.Pairwise
        (fun a b => a.isPrefixOf b = false ∧ b.isPrefixOf a = false) sources →
      (∀ S ∈ sources, S.isPrefixOf T = false) →
      (merge_subfolders_to_target failMove rmFail ts sources T files dirs).moved
          + (merge_subfolders_to_target failMove rmFail ts sources T files dirs).skipped
        = (sources.map
            (fun S => (files.filter (fun f => isUnder S f)).length)).sum := by
  intro fm rf ts sources T files dirs hT h1 h2 h3
  have hmain := mergeLoop_conservation fm dirs T ts sources ⟨files, 0, 0, []⟩ h1 h2 h3
  simp only [merge_subfolders_to_target, if_pos hT]
  simpa using hmain

/-- C2 counterexample to the claim as stated: with nested valid sources
`a` and `a/b` the conservation equation fails on both readings of the
total.  With the single file `a/b/x` failing to move, it is enumerated
and skipped once per enclosing source: `moved + skipped = 2` while the
sources' subtrees hold 1 distinct file.  With the move succeeding, the
file moves while processing `a` and `a/b` enumerates nothing:
`moved + skipped = 1` while the per-source total at merge start is 2. -/
theorem merge_conservation_nested_counterexample :
    ((merge_subfolders_to_target [["a", "b", "x"]] [] 0 [["a"], ["a", "b"]] ["t"]
        [["a", "b", "x"]] [["a"], ["a", "b"], ["t"]]).moved
      + (merge_subfolders_to_target [["a", "b", "x"]] [] 0 [["a"], ["a", "b"]] ["t"]
        [["a", "b", "x"]] [["a"], ["a", "b"], ["t"]]).skipped = 2) ∧
    (([["a", "b", "x"]] : List FPath).filter
        (fun f => [(["a"] : FPath), ["a", "b"]].any (fun S => isUnder S f))).length
      = 1 ∧
    ((merge_subfolders_to_target [] [] 0 [["a"], ["a", "b"]] ["t"]
        [["a", "b", "x"]] [["a"], ["a", "b"], ["t"]]).moved
      + (merge_subfolders_to_target [] [] 0 [["a"], ["a", "b"]] ["t"]
        [["a", "b", "x"]] [["a"], ["a", "b"], ["t"]]).skipped = 1) ∧
    (([(["a"] : FPath), ["a", "b"]]).map
        (fun S => (([["a", "b", "x"]] : List FPath).filter
          (fun f => isUnder S f)).length)).sum = 2 := by
  decide

/-- C2 witness: the spec's Scenario A shape — two sibling sources under a
root, a sibling target, one file each: `moved + skipped` equals the
2 files present at merge start. -/
theorem merge_conservation_witness :
    (["R", "x_merged"] : FPath) ∈ [["R"], ["R", "x"], ["R", "y"], ["R", "x_merged"]] ∧
    (merge_subfolders_to_target [] [] 0 [["R", "x"], ["R", "y"]] ["R", "x_merged"]
        [["R", "x", "1.png"], ["R", "y", "1.png"]]
        [["R"], ["R", "x"], ["R", "y"], ["R", "x_merged"]]).moved
      + (merge_subfolders_to_target [] [] 0 [["R", "x"], ["R", "y"]] ["R", "x_merged"]
        [["R", "x", "1.png"], ["R", "y", "1.png"]]
        [["R"], ["R", "x"], ["R", "y"], ["R", "x_merged"]]).skipped
      = ([(["R", "x"] : FPath), ["R", "y"]].map
          (fun S => (([["R", "x", "1.png"], ["R", "y", "1.png"]] : List FPath).filter
            (fun f => isUnder S f)).length)).sum :=
  ⟨by decide,
   merge_conservation [] [] 0 [["R", "x"], ["R", "y"]] ["R", "x_merged"]
     [["R", "x", "1.png"], ["R", "y", "1.png"]]
     [["R"], ["R", "x"], ["R", "y"], ["R", "x_merged"]]
     (by decide) (by decide) (by decide) (by decide)⟩

/-! ## C4: the post-merge cleanup pass -/

theorem hasChild_mono {dirs files cur : List FPath} {d : FPath}
    (hsub : ∀ e ∈ cur, e ∈ dirs)
    (h : hasImmediateChild dirs files d = false) :
    hasImmediateChild cur files d = false := by
  rw [hasImmediateChild] at h ⊢
  rw [List.any_eq_false] at h ⊢
  intro e he
  rcases List.mem_append.1 he with he | he
  · exact h e (List.mem_append.2 (Or.inl (hsub e he)))
  · exact h e (List.mem_append.2 (Or.inr he))

theorem mem_collectEmptyDirs {dirs files : List FPath} {S d : FPath} :
    d ∈ collectEmptyDirs dirs files S ↔
      d ∈ dirs ∧ S.isPrefixOf d = true ∧ hasImmediateChild dirs files d = false := by
  rw [collectEmptyDirs]
  constructor
  · intro h
    have h1 := List.of_mem_filter h
    have h2 := List.mem_of_mem_filter h
    rw [walkDirs] at h2
    have h3 := (List.mem_insertionSort _).1 h2
    exact ⟨List.mem_of_mem_filter h3, List.of_mem_filter h3, by simpa using h1⟩
  · rintro ⟨hd, hp, hc⟩
    apply List.mem_filter.2
    refine ⟨?_, by simpa using hc⟩
    rw [walkDirs]
    exact (List.mem_insertionSort _).2 (List.mem_filter.2 ⟨hd, hp⟩)

theorem rmdir_fold_mem (rmFail files dirs : List FPath) (S : FPath) :
    ∀ (todo : List FPath) (cur : List FPath) (cnt : Nat) (x : FPath),
      (∀ d ∈ todo, hasImmediateChild dirs files d = false) →
      (∀ e ∈ cur, e ∈ dirs) →
      cur.Nodup →
      (x ∈ (todo.foldl (rmdirStep rmFail files S) (cur, cnt)).1 ↔
        x ∈ cur ∧ ¬(x ∈ todo ∧ x ∉ rmFail)) := by
  intro todo
  induction todo with
  | nil =>
    intro cur cnt x _ _ _
    simp
  | cons h0 tl ih =>
    intro cur cnt x h1 h2 h3
    rw [List.foldl_cons]
    have hchild : hasImmediateChild cur files h0 = false :=
      hasChild_mono h2 (h1 h0 (List.mem_cons_self _ _))
    by_cases hc : h0 ∈ cur ∧ h0 ∉ rmFail
    · have hstep : rmdirStep rmFail files S (cur, cnt) h0
          = (cur.erase h0, cnt + if h0 = S then 1 else 0) := by
        rw [rmdirStep, if_pos ⟨hc.1, hchild, hc.2⟩]
      rw [hstep]
      rw [ih (cur.erase h0) _ x
        (fun d hd => h1 d (List.mem_cons_of_mem _ hd))
        (fun e he => h2 e (List.mem_of_mem_erase he))
        (h3.erase h0)]
      rw [h3.mem_erase_iff]
      constructor
      · rintro ⟨⟨hxh, hxc⟩, hrest⟩
        refine ⟨hxc, ?_⟩
        rintro ⟨hxt, hxrm⟩
        rcases List.mem_cons.1 hxt with h4 | h4
        · exact hxh h4
        · exact hrest ⟨h4, hxrm⟩
      · rintro ⟨hxc, hne⟩
        by_cases hxh : x = h0
        · exact absurd ⟨hxh ▸ List.mem_cons_self h0 tl, hxh ▸ hc.2⟩ hne
        · refine ⟨⟨hxh, hxc⟩, ?_⟩
          rintro ⟨hxt, hxrm⟩
          exact hne ⟨List.mem_cons_of_mem _ hxt, hxrm⟩
    · have hstep : rmdirStep rmFail files S (cur, cnt) h0 = (cur, cnt) := by
        rw [rmdirStep, if_neg]
        rintro ⟨ha, _, hcc⟩
        exact hc ⟨ha, hcc⟩
      rw [hstep]
      rw [ih cur cnt x (fun d hd => h1 d (List.mem_cons_of_mem _ hd)) h2 h3]
      constructor
      · rintro ⟨hxc, hne⟩
        refine ⟨hxc, ?_⟩
        rintro ⟨hxt, hxrm⟩
        rcases List.mem_cons.1 hxt with h4 | h4
        · exact hc ⟨h4 ▸ hxc, h4 ▸ hxrm⟩
        · exact hne ⟨h4, hxrm⟩
      · rintro ⟨hxc, hne⟩
        refine ⟨hxc, ?_⟩
        rintro ⟨hxt, hxrm⟩
        exact hne ⟨List.mem_cons_of_mem _ hxt, hxrm⟩

/-- C4 (amended): the cleanup pass over a processed source deletes
exactly those directories at or below the source root — the root itself
included — that were completely empty (no subdirectories and no files at
all) when the post-merge bottom-up walk scanned them and whose `rmdir`
did not fail; deletion failures are non-fatal, the remaining collected
directories still being removed.  A directory whose only content is
empty subdirectories is not collected and survives, so a source root
containing only empty subfolders is not removed (see the
counterexample). -/
theorem cleanup_deletes_scan_empty :
    ∀ (rmFail files dirs : List FPath) (S : FPath) (cnt : Nat) (x : FPath),
      dirs.Nodup →
      (x ∈ (cleanupSource rmFail files (dirs, cnt) S).1 ↔
        x ∈ dirs ∧ ¬(S.isPrefixOf x = true ∧
          hasImmediateChild dirs files x = false ∧ x ∉ rmFail)) := by
  intro rmFail files dirs S cnt x hnd
  rw [cleanupSource]
  rw [rmdir_fold_mem rmFail files dirs S (collectEmptyDirs dirs files S) dirs cnt x
    (fun d hd => (mem_collectEmptyDirs.1 hd).2.2)
    (fun e he => he) hnd]
  constructor
  · rintro ⟨hx, hne⟩
    refine ⟨hx, ?_⟩
    rintro ⟨hp, hcemp, hr⟩
    exact hne ⟨mem_collectEmptyDirs.2 ⟨hx, hp, hcemp⟩, hr⟩
  · rintro ⟨hx, hne⟩
    refine ⟨hx, ?_⟩
    rintro ⟨hcol, hr⟩
    obtain ⟨_, hp, hcemp⟩ := mem_collectEmptyDirs.1 hcol
    exact hne ⟨hp, hcemp, hr⟩

/-- C4 counterexample to the claim as stated: a source `S` whose only
content is the empty subdirectory `S/a`, no files anywhere, no `rmdir`
failures.  By the claim, `S` contains neither files nor non-empty
subdirectories, so the cleanup should delete it; the code collects only
directories whose scan-time listing is completely empty, so it deletes
`S/a` but leaves the source root `S` in place. -/
theorem cleanup_keeps_root_counterexample :
    (cleanupSource [] [] ([["S"], ["S", "a"]], 0) ["S"]).1 = [["S"]] ∧
    hasImmediateChild [["S"], ["S", "a"]] [] ["S", "a"] = false ∧
    (["S"] : FPath) ∈ (cleanupSource [] [] ([["S"], ["S", "a"]], 0) ["S"]).1 ∧
    (["S", "a"] : FPath) ∉ (cleanupSource [] [] ([["S"], ["S", "a"]], 0) ["S"]).1 := by
  decide

/-- C4 witness for the amended theorem: a directly-empty source root is
deleted (its membership in the result is refuted by the
characterization), matching the "including the source root itself"
part for roots that are themselves entirely empty. -/
theorem cleanup_deletes_scan_empty_witness :
    ([["S"], ["S", "a"]] : List FPath).Nodup ∧
    ((["S"] : FPath) ∈ (cleanupSource [] [] ([["S"], ["S", "a"]], 0) ["S"]).1 ↔
      (["S"] : FPath) ∈ [["S"], ["S", "a"]] ∧
        ¬((["S"] : FPath).isPrefixOf ["S"] = true ∧
          hasImmediateChild [["S"], ["S", "a"]] [] ["S"] = false ∧
          (["S"] : FPath) ∉ ([] : List FPath))) :=
  ⟨by decide,
   cleanup_deletes_scan_empty [] [] [["S"], ["S", "a"]] ["S"] 0 ["S"] (by decide)⟩

end MergePic
